import Mathlib

/-!
Verification of the tool-schema conversion and round-trip protocol of the Groq
adapter (`mirascope/groq/tools.py`).  The Python code is shallowly embedded:
`json.loads` is modelled as an executable fuel-based parser over `List Char`,
pydantic's `model_validate` as an explicit field-validation function, and the
repository's base-class schema builder (not part of the sources at hand) is
modelled from the specification's description of it.
-/

namespace Mirascope

/-- JSON values as produced by Python's `json.loads`.  Numbers are kept in exact
decimal form: `num m e` denotes `m * 10 ^ e`.  Python's nonstandard acceptance of
`NaN` / `Infinity` / `-Infinity` is represented by the `nan` / `inf` constructors. -/
inductive Json where
  | null
  | bool (b : Bool)
  | num (mantissa : Int) (exp10 : Int)
  | nan
  | inf (neg : Bool)
  | str (s : String)
  | arr (elems : List Json)
  | obj (members : List (String × Json))

/-- Left and right curly brace characters. -/
def lbrace : Char := Char.ofNat 123

def rbrace : Char := Char.ofNat 125

/-- The JSON whitespace characters skipped by Python's decoder. -/
def wsChars : List Char := [' ', '\t', '\n', '\r']

def skipWs : List Char → List Char
  | [] => []
  | c :: cs => if c ∈ wsChars then skipWs cs else c :: cs

/-- Python dict insertion order semantics: an existing key keeps its position and
gets the new value; a new key is appended at the end. -/
def dictInsert {α : Type} : List (String × α) → String → α → List (String × α)
  | [], k, v => [(k, v)]
  | (k', v') :: tl, k, v =>
    if k' = k then (k, v) :: tl else (k', v') :: dictInsert tl k v

/-- Lookup of a key in an association list (Python dict lookup). -/
def dlookup {α : Type} : List (String × α) → String → Option α
  | [], _ => none
  | (k', v') :: tl, k => if k' = k then some v' else dlookup tl k

def hexDigitVal (c : Char) : Option Nat :=
  if '0' ≤ c ∧ c ≤ '9' then some (c.toNat - '0'.toNat)
  else if 'a' ≤ c ∧ c ≤ 'f' then some (c.toNat - 'a'.toNat + 10)
  else if 'A' ≤ c ∧ c ≤ 'F' then some (c.toNat - 'A'.toNat + 10)
  else none

def isHighSurrogate (n : Nat) : Bool := 0xD800 ≤ n && n ≤ 0xDBFF

def isLowSurrogate (n : Nat) : Bool := 0xDC00 ≤ n && n ≤ 0xDFFF

/-- Parse exactly four hexadecimal digits (the `XXXX` of a `\uXXXX` escape). -/
def pHex4 : List Char → Option (Nat × List Char)
  | a :: b :: c :: d :: rest =>
    match hexDigitVal a, hexDigitVal b, hexDigitVal c, hexDigitVal d with
    | some va, some vb, some vc, some vd =>
      some (((va * 16 + vb) * 16 + vc) * 16 + vd, rest)
    | _, _, _, _ => none
  | _ => none

/-- One escape sequence after a backslash: the standard single-character escapes
and `\uXXXX` (with surrogate-pair combination, as Python's decoder does).  Lone
surrogates, which Python keeps as unpaired surrogate code units, fall back to
`Char.ofNat`'s default. -/
def pEscape (cs : List Char) : Option (Char × List Char) :=
  match cs with
  | [] => none
  | e :: cs' =>
    if e = '"' then some ('"', cs')
    else if e = '\\' then some ('\\', cs')
    else if e = '/' then some ('/', cs')
    else if e = 'b' then some ('\x08', cs')
    else if e = 'f' then some ('\x0c', cs')
    else if e = 'n' then some ('\n', cs')
    else if e = 'r' then some ('\x0d', cs')
    else if e = 't' then some ('\t', cs')
    else if e = 'u' then
      match pHex4 cs' with
      | none => none
      | some (n, cs'') =>
        if isHighSurrogate n then
          match cs'' with
          | c1 :: c2 :: cs3 =>
            if c1 = '\\' ∧ c2 = 'u' then
              match pHex4 cs3 with
              | some (n2, cs4) =>
                if isLowSurrogate n2 then
                  some (Char.ofNat (0x10000 + (n - 0xD800) * 0x400 + (n2 - 0xDC00)), cs4)
                else some (Char.ofNat n, cs'')
              | none => some (Char.ofNat n, cs'')
            else some (Char.ofNat n, cs'')
          | _ => some (Char.ofNat n, cs'')
        else some (Char.ofNat n, cs'')
    else none

/-- Body of a JSON string literal after the opening quote, in Python's strict
mode: raw control characters are rejected, escapes are decoded by `pEscape`. -/
def pStrAux : Nat → List Char → List Char → Option (List Char × List Char)
  | 0, _, _ => none
  | _, _, [] => none
  | fuel+1, acc, c :: cs =>
    if c = '"' then some (acc, cs)
    else if c = '\\' then
      match pEscape cs with
      | some (d, cs') => pStrAux fuel (acc ++ [d]) cs'
      | none => none
    else if c.toNat < 0x20 then none
    else pStrAux fuel (acc ++ [c]) cs

def isDigitC (c : Char) : Bool := '0' ≤ c && c ≤ '9'

/-- Greedily consume decimal digits, returning the accumulated value, the number
of digits consumed, and the rest of the input. -/
def pDigits : Nat → Nat → Nat → List Char → Nat × Nat × List Char
  | 0, acc, cnt, cs => (acc, cnt, cs)
  | fuel+1, acc, cnt, cs =>
    match cs with
    | [] => (acc, cnt, [])
    | c :: cs' =>
      if isDigitC c then pDigits fuel (acc * 10 + (c.toNat - 48)) (cnt + 1) cs'
      else (acc, cnt, cs)

/-- Optional fractional part: consumed only when a digit follows the dot,
mirroring Python's `NUMBER_RE` where the whole group is optional. -/
def pFrac (intVal : Nat) (cs : List Char) : Int × Int × List Char :=
  match cs with
  | d :: tl =>
    if d = '.' then
      match tl with
      | c :: cs' =>
        if isDigitC c then
          let r := pDigits cs'.length (intVal * 10 + (c.toNat - 48)) 1 cs'
          ((r.1 : Int), -(r.2.1 : Int), r.2.2)
        else ((intVal : Int), 0, cs)
      | [] => ((intVal : Int), 0, cs)
    else ((intVal : Int), 0, cs)
  | [] => ((intVal : Int), 0, cs)

/-- Optional exponent part, consumed only when digits (after an optional sign)
follow the `e`/`E`. -/
def pExp (cs : List Char) : Int × List Char :=
  match cs with
  | e :: tl =>
    if e = 'e' ∨ e = 'E' then
      match tl with
      | s :: c :: cs' =>
        if (s = '+' ∨ s = '-') ∧ isDigitC c then
          let r := pDigits cs'.length (c.toNat - 48) 1 cs'
          (if s = '-' then -(r.1 : Int) else (r.1 : Int), r.2.2)
        else if isDigitC s then
          let r := pDigits (c :: cs').length (s.toNat - 48) 1 (c :: cs')
          ((r.1 : Int), r.2.2)
        else (0, cs)
      | [s] =>
        if isDigitC s then ((s.toNat - 48 : Nat), [])
        else (0, cs)
      | [] => (0, cs)
    else (0, cs)
  | [] => (0, cs)

/-- Integer part of a JSON number: `0`, or a nonzero digit followed by more
digits (Python's regex `(?:0|[1-9]\d*)`), then fraction and exponent. -/
def pNumCore (cs : List Char) : Option (Int × Int × List Char) :=
  match cs with
  | [] => none
  | c :: cs' =>
    if c = '0' then
      let f := pFrac 0 cs'
      let e := pExp f.2.2
      some (f.1, f.2.1 + e.1, e.2)
    else if isDigitC c then
      let d := pDigits cs'.length (c.toNat - 48) 1 cs'
      let f := pFrac d.1 d.2.2
      let e := pExp f.2.2
      some (f.1, f.2.1 + e.1, e.2)
    else none

/-- A JSON number or Python's accepted constant `-Infinity` (the input starts at
the first character of the token; like Python's scanner, the number regex is
tried first and the constant only when it fails). -/
def pNum (cs : List Char) : Option (Json × List Char) :=
  match cs with
  | [] => none
  | c :: cs' =>
    if c = '-' then
      match pNumCore cs' with
      | some (m, e, rest) => some (.num (-m) e, rest)
      | none =>
        match cs' with
        | 'I' :: 'n' :: 'f' :: 'i' :: 'n' :: 'i' :: 't' :: 'y' :: rest =>
          some (.inf true, rest)
        | _ => none
    else
      match pNumCore cs with
      | some (m, e, rest) => some (.num m e, rest)
      | none => none

/-- After a member's value: either the comma continuation (via `contF`) or the
closing brace. -/
def pAfterValue
    (contF : List (String × Json) → List Char → Option (List (String × Json) × List Char))
    (acc' : List (String × Json)) (r4 : List Char) :
    Option (List (String × Json) × List Char) :=
  match skipWs r4 with
  | c5 :: r6 =>
    if c5 = ',' then contF acc' r6
    else if c5 = rbrace then some (acc', r6)
    else none
  | [] => none

/-- After a member's key: the colon, then the value (parsed by `pv`, landing in
the Python dict via `dictInsert`). -/
def pAfterKey (pv : List Char → Option (Json × List Char))
    (contF : List (String × Json) → List Char → Option (List (String × Json) × List Char))
    (acc : List (String × Json)) (k : List Char) (r1 : List Char) :
    Option (List (String × Json) × List Char) :=
  match skipWs r1 with
  | c3 :: r3 =>
    if c3 = ':' then
      match pv r3 with
      | none => none
      | some (v, r4) => pAfterValue contF (dictInsert acc (String.mk k) v) r4
    else none
  | [] => none

/-- One member of a JSON object: a string key, then `pAfterKey`. -/
def pMembersCore (pv : List Char → Option (Json × List Char))
    (contF : List (String × Json) → List Char → Option (List (String × Json) × List Char))
    (acc : List (String × Json)) (cs : List Char) :
    Option (List (String × Json) × List Char) :=
  match cs with
  | [] => none
  | c :: cs' =>
    if c = '"' then
      match pStrAux (cs'.length + 1) [] cs' with
      | none => none
      | some (k, r1) => pAfterKey pv contF acc k r1
    else none

/-- Member loop of a JSON object, after the opening brace of a nonempty
object. -/
def pMembersF (pv : List Char → Option (Json × List Char)) :
    Nat → List (String × Json) → List Char → Option (List (String × Json) × List Char)
  | 0, _, _ => none
  | fuel+1, acc, cs =>
    pMembersCore pv (fun acc' cs' => pMembersF pv fuel acc' cs') acc (skipWs cs)

/-- Element loop of a JSON array, after the opening bracket of a nonempty
array. -/
def pElemsF (pv : List Char → Option (Json × List Char)) :
    Nat → List Json → List Char → Option (List Json × List Char)
  | 0, _, _ => none
  | fuel+1, acc, cs =>
    match pv cs with
    | none => none
    | some (v, r1) =>
      match skipWs r1 with
      | c2 :: r2 =>
        if c2 = ',' then pElemsF pv fuel (acc ++ [v]) r2
        else if c2 = ']' then some (acc ++ [v], r2)
        else none
      | [] => none

/-- Dispatch of one JSON value on its first character (whitespace already
skipped), modelling the body of Python's `_scan_once`; `pv` parses nested
values. -/
def pValCore (pv : List Char → Option (Json × List Char)) (cs : List Char) :
    Option (Json × List Char) :=
  match cs with
  | [] => none
  | c :: cs' =>
    if c = '"' then
      match pStrAux (cs'.length + 1) [] cs' with
      | some (s, rest) => some (.str (String.mk s), rest)
      | none => none
    else if c = lbrace then
      match skipWs cs' with
      | c2 :: cs3 =>
        if c2 = rbrace then some (.obj [], cs3)
        else
          match pMembersF pv (cs'.length + 1) [] cs' with
          | some (kvs, rest) => some (.obj kvs, rest)
          | none => none
      | [] => none
    else if c = '[' then
      match skipWs cs' with
      | c2 :: cs3 =>
        if c2 = ']' then some (.arr [], cs3)
        else
          match pElemsF pv (cs'.length + 1) [] cs' with
          | some (xs, rest) => some (.arr xs, rest)
          | none => none
      | [] => none
    else if c = 't' then
      match cs' with
      | 'r' :: 'u' :: 'e' :: rest => some (.bool true, rest)
      | _ => none
    else if c = 'f' then
      match cs' with
      | 'a' :: 'l' :: 's' :: 'e' :: rest => some (.bool false, rest)
      | _ => none
    else if c = 'n' then
      match cs' with
      | 'u' :: 'l' :: 'l' :: rest => some (.null, rest)
      | _ => none
    else if c = 'N' then
      match cs' with
      | 'a' :: 'N' :: rest => some (.nan, rest)
      | _ => none
    else if c = 'I' then
      match cs' with
      | 'n' :: 'f' :: 'i' :: 'n' :: 'i' :: 't' :: 'y' :: rest => some (.inf false, rest)
      | _ => none
    else pNum (c :: cs')

/-- One JSON value, modelling Python's `_scan_once`: leading whitespace is
skipped, then the value is dispatched on its first character. -/
def pVal : Nat → List Char → Option (Json × List Char)
  | 0, _ => none
  | fuel+1, cs => pValCore (fun x => pVal fuel x) (skipWs cs)

/-- Model of Python `json.loads` on a character list: one value, then only
trailing whitespace ("Extra data" otherwise). -/
def jsonLoadsL (cs : List Char) : Option Json :=
  match pVal (cs.length + 1) cs with
  | some (j, rest) => if skipWs rest = [] then some j else none
  | none => none

/-- Model of Python `json.loads` restricted to the JSON constructs above. -/
def jsonLoads (s : String) : Option Json := jsonLoadsL s.data

/-! ### The tool data model

`ChoiceMessageToolCall` is the Groq SDK payload consumed by
`GroqTool.from_tool_call`; its fields are optional as in the SDK type.  A tool
type (a `GroqTool` subclass produced by the converters) is embedded as a
`ToolDef`: its name, description and pydantic fields. -/

/-- Supported primitive field types of a tool's parameters. -/
inductive FType where
  | string
  | integer
  | boolean
deriving DecidableEq

structure FieldDef where
  name : String
  type : FType
  default : Option Json
  description : String

structure ToolDef where
  name : String
  description : String
  fields : List FieldDef

/-- The Groq SDK's `ChoiceMessageToolCall.function` member. -/
structure ChoiceMessageToolCallFunction where
  arguments : Option String
  name : Option String

/-- The Groq SDK's `ChoiceMessageToolCall` payload. -/
structure ChoiceMessageToolCall where
  id : Option String
  function : Option ChoiceMessageToolCallFunction
  type : Option String

/-- Values held by the Python dict `model_json` in `from_tool_call`: parsed JSON
argument values, plus the raw tool-call object assigned under `"tool_call"`. -/
inductive ArgVal where
  | jsonVal (j : Json)
  | callVal (tc : ChoiceMessageToolCall)

/-- The reserved key under which `from_tool_call` attaches the originating tool
call (`model_json["tool_call"] = tool_call` in the source). -/
def reservedKey : String := "tool_call"

/-- Modelled from the spec: the base `BaseTool` (not among the sources at hand)
keeps the reserved back-reference key out of the schema-declared argument
fields — "attach the originating `ToolCallRequest` under a reserved key distinct
from any schema-declared field name". -/
def schemaFields (td : ToolDef) : List FieldDef :=
  td.fields.filter (fun f => f.name ≠ reservedKey)

/-- Does a parsed JSON value satisfy a declared field type? -/
def typeMatch : FType → Json → Bool
  | .string, .str _ => true
  | .integer, .num _ e => e = 0
  | .boolean, .bool _ => true
  | _, _ => false

/-- A validated tool instance: the validated argument fields plus the value
stored under the reserved key (the back-reference to the tool call). -/
structure ToolInstance where
  args : List (String × Json)
  tool_call : ArgVal

/-- Validation failures of pydantic `model_validate` against the tool's fields. -/
inductive VErr where
  | missingField (name : String)
  | wrongType (name : String)
  | missingToolCall
deriving DecidableEq

/-- Modelled from the spec (pydantic field validation): each schema-declared
field must be present with a type-matching value or fall back to its declared
default; a missing required field or a type mismatch is a validation failure. -/
def buildArgs (d : List (String × ArgVal)) : List FieldDef → Except VErr (List (String × Json))
  | [] => .ok []
  | f :: fs =>
    match dlookup d f.name with
    | some (.jsonVal j) =>
      if typeMatch f.type j then (buildArgs d fs).map (fun args => (f.name, j) :: args)
      else .error (.wrongType f.name)
    | some (.callVal _) => .error (.wrongType f.name)
    | none =>
      match f.default with
      | some dv => (buildArgs d fs).map (fun args => (f.name, dv) :: args)
      | none => .error (.missingField f.name)

/-- Modelled from the spec: pydantic `model_validate` for a tool type — validate
the schema-declared fields and store the value under the reserved key as the
instance's back-reference (the base class requires it and skips validating it). -/
def model_validate (td : ToolDef) (d : List (String × ArgVal)) : Except VErr ToolInstance :=
  match dlookup d reservedKey with
  | some v => (buildArgs d (schemaFields td)).map (fun args => ⟨args, v⟩)
  | none => .error .missingToolCall

/-- Failure kinds of `GroqTool.from_tool_call`: the `ValueError` wrapping a
`json.JSONDecodeError` (the spec's `ArgumentParseError`), the pydantic
`ValidationError` (the spec's `ArgumentValidationError`), and the `TypeError`
escaping from item assignment on a non-dict parse result. -/
inductive FtcErr where
  | parseErr
  | validationErr (e : VErr)
  | typeErr
deriving DecidableEq

/-- The truthiness test `if tool_call.function and tool_call.function.arguments:`
from the source: the raw arguments string when the function member is present
and its arguments string is present and nonempty. -/
def rawArgs (tc : ChoiceMessageToolCall) : Option String :=
  match tc.function with
  | some f =>
    match f.arguments with
    | some s => if s = "" then none else some s
    | none => none
  | none => none

/-- The assignment `model_json["tool_call"] = tool_call` from the source. -/
def attachToolCall (d : List (String × ArgVal)) (tc : ChoiceMessageToolCall) :
    List (String × ArgVal) :=
  dictInsert d reservedKey (.callVal tc)

namespace GroqTool

/-- `GroqTool.from_tool_call`: parse `raw_arguments` when present (a decode
failure becomes the wrapped `ValueError`), assign the originating tool call
under `"tool_call"` (a `TypeError` when the parse result is not a dict), and
validate the resulting dict against the tool type. -/
def from_tool_call (td : ToolDef) (tc : ChoiceMessageToolCall) : Except FtcErr ToolInstance :=
  match rawArgs tc with
  | none => (model_validate td (attachToolCall [] tc)).mapError .validationErr
  | some s =>
    match jsonLoads s with
    | none => .error .parseErr
    | some (.obj kvs) =>
      (model_validate td
        (attachToolCall (kvs.map (fun kv => (kv.1, ArgVal.jsonVal kv.2))) tc)).mapError
        .validationErr
    | some _ => .error .typeErr

end GroqTool

/-! ### Schema rendering -/

def ftypeName : FType → String
  | .string => "string"
  | .integer => "integer"
  | .boolean => "boolean"

/-- Modelled from the spec: a primitive field renders to its `{type, description}`
JSON-schema entry. -/
def fieldSchema (f : FieldDef) : Json :=
  .obj [("type", .str (ftypeName f.type)), ("description", .str f.description)]

/-- Names of the required parameters: exactly the schema-declared fields without
a default ("optional fields are omitted from the `required` list"). -/
def requiredNames (td : ToolDef) : List String :=
  ((schemaFields td).filter (fun f => f.default.isNone)).map (fun f => f.name)

/-- Modelled from the spec: the vendor-neutral `parameters` payload — an `object`
schema of the declared properties and the required-field list. -/
def parametersSchema (td : ToolDef) : Json :=
  .obj [("type", .str "object"),
        ("properties", .obj ((schemaFields td).map (fun f => (f.name, fieldSchema f)))),
        ("required", .arr ((requiredNames td).map (fun n => .str n)))]

/-- Modelled from the spec: the shared base schema builder `BaseTool.tool_schema`
(not among the sources at hand) produces the vendor-neutral
`{name, description, parameters}` triple. -/
def BaseTool.tool_schema (td : ToolDef) : Json :=
  .obj [("name", .str td.name), ("description", .str td.description),
        ("parameters", parametersSchema td)]

/-- `GroqTool.tool_schema`: the Groq envelope around the base schema, from the
source `fn = super().tool_schema(); return {"type": "function", "function": fn}`. -/
def GroqTool.tool_schema (td : ToolDef) : Json :=
  .obj [("type", .str "function"), ("function", BaseTool.tool_schema td)]

/-! ### Tool sources and converters -/

/-- A callable's parsed signature: its name, its documented description, and its
parameters (a parameter with a default value is optional). -/
structure FnSig where
  name : String
  description : String
  params : List FieldDef

/-- A structured-type (pydantic `BaseModel`) definition. -/
structure ModelDef where
  name : String
  description : String
  fields : List FieldDef

/-- Modelled from the spec: `convert_function_to_tool` constructs a tool type
whose fields mirror the callable's parameters. -/
def convert_function_to_tool (sig : FnSig) : ToolDef :=
  ⟨sig.name, sig.description, sig.params⟩

/-- Modelled from the spec: `convert_base_model_to_tool` reuses the structured
type's fields unchanged. -/
def convert_base_model_to_tool (md : ModelDef) : ToolDef :=
  ⟨md.name, md.description, md.fields⟩

/-- Modelled from the spec: `convert_base_type_to_tool` wraps a primitive type
into a tool with exactly one implicitly-named field `value`. -/
def convert_base_type_to_tool (t : FType) : ToolDef :=
  ⟨ftypeName t, "", [⟨"value", t, none, ""⟩]⟩

def GroqTool.from_fn (sig : FnSig) : ToolDef := convert_function_to_tool sig

def GroqTool.from_model (md : ModelDef) : ToolDef := convert_base_model_to_tool md

def GroqTool.from_base_type (t : FType) : ToolDef := convert_base_type_to_tool t

/-- The three supported tool source kinds. -/
inductive ToolSource where
  | fn (sig : FnSig)
  | model (md : ModelDef)
  | baseType (t : FType)

def buildToolDef : ToolSource → ToolDef
  | .fn sig => GroqTool.from_fn sig
  | .model md => GroqTool.from_model md
  | .baseType t => GroqTool.from_base_type t

/-! ### Valid argument mappings and their JSON encoding

A valid arguments mapping for a tool (distinct keys, every key a schema-declared
field, every schema-declared field either supplied with a type-matching value or
backed by a default) and the canonical JSON text carrying it, for the round-trip
property. -/

def nodupKeys : List (String × Json) → Bool
  | [] => true
  | (k, _) :: tl => (dlookup tl k).isNone && nodupKeys tl

def fieldOk (m : List (String × Json)) (f : FieldDef) : Bool :=
  match dlookup m f.name with
  | some v => typeMatch f.type v
  | none => f.default.isSome

def validArgs (td : ToolDef) (m : List (String × Json)) : Bool :=
  nodupKeys m &&
  (schemaFields td).all (fieldOk m) &&
  m.all (fun kv => (schemaFields td).any (fun f => f.name = kv.1))

def hexDigitChar (n : Nat) : Char :=
  if n < 10 then Char.ofNat (48 + n) else Char.ofNat (87 + n)

/-- Escape of one character inside a JSON string literal (as `json.dumps` does:
quote, backslash, and control characters; other characters stand for themselves). -/
def escChar (c : Char) : List Char :=
  if c = '"' then "\\\"".data
  else if c = '\\' then "\\\\".data
  else if c.toNat < 0x20 then
    "\\u00".data ++ [hexDigitChar (c.toNat / 16), hexDigitChar (c.toNat % 16)]
  else [c]

def escStr (cs : List Char) : List Char := (cs.map escChar).flatten

/-- Decimal digits of a natural number, most significant first. -/
def natDigitsAux : Nat → Nat → List Char → List Char
  | 0, _, acc => acc
  | fuel+1, n, acc =>
    if n < 10 then Char.ofNat (48 + n) :: acc
    else natDigitsAux fuel (n / 10) (Char.ofNat (48 + n % 10) :: acc)

def natDigits (n : Nat) : List Char := natDigitsAux (n + 1) n []

def encInt (i : Int) : List Char :=
  if i < 0 then '-' :: natDigits i.natAbs else natDigits i.natAbs

/-- JSON text of one primitive argument value (argument mappings hold primitive
values only, per the supported field types). -/
def encValue : Json → List Char
  | .null => "null".data
  | .bool true => "true".data
  | .bool false => "false".data
  | .num m e => encInt m ++ (if e = 0 then [] else 'e' :: encInt e)
  | .str s => '"' :: (escStr s.data ++ ['"'])
  | _ => []

def encMember (kv : String × Json) : List Char :=
  '"' :: (escStr kv.1.data ++ ['"', ':'] ++ encValue kv.2)

/-- Comma-separated JSON texts of the members of an arguments mapping. -/
def encMembersList : List (String × Json) → List Char
  | [] => []
  | [kv] => encMember kv
  | kv :: tl => encMember kv ++ ',' :: encMembersList tl

/-- JSON text of an arguments mapping: a flat JSON object. -/
def encodeArgs (m : List (String × Json)) : List Char :=
  lbrace :: (encMembersList m ++ [rbrace])

/-! ### Association-list lemmas -/

theorem dlookup_dictInsert_self {α : Type} (d : List (String × α)) (k : String) (v : α) :
    dlookup (dictInsert d k v) k = some v := by
  induction d with
  | nil => simp [dictInsert, dlookup]
  | cons kv tl ih =>
    by_cases h : kv.1 = k
    · simp [dictInsert, h, dlookup]
    · simp [dictInsert, h, dlookup, ih]

theorem dlookup_dictInsert_ne {α : Type} (d : List (String × α)) (k k' : String) (v : α)
    (h : k' ≠ k) : dlookup (dictInsert d k v) k' = dlookup d k' := by
  induction d with
  | nil =>
    simp only [dictInsert, dlookup]
    rw [if_neg fun hc => h hc.symm]
  | cons kv tl ih =>
    obtain ⟨k0, v0⟩ := kv
    by_cases hk : k0 = k
    · subst hk
      simp only [dictInsert, if_pos rfl, dlookup]
      rw [if_neg fun hc => h hc.symm, if_neg fun hc => h hc.symm]
    · simp only [dictInsert, if_neg hk, dlookup]
      by_cases hk' : k0 = k'
      · simp [hk']
      · simp [hk', ih]

theorem dlookup_map_val {α β : Type} (g : α → β) (m : List (String × α)) (k : String) :
    dlookup (m.map (fun kv => (kv.1, g kv.2))) k = (dlookup m k).map g := by
  induction m with
  | nil => simp [dlookup]
  | cons kv tl ih =>
    by_cases h : kv.1 = k
    · simp [dlookup, h]
    · simp [dlookup, h, ih]

theorem dlookup_mem {α : Type} (l : List (String × α)) (k : String) (v : α)
    (h : dlookup l k = some v) : (k, v) ∈ l := by
  induction l with
  | nil => simp [dlookup] at h
  | cons kv tl ih =>
    obtain ⟨k0, v0⟩ := kv
    by_cases hk : k0 = k
    · subst hk
      simp only [dlookup, if_pos rfl] at h
      cases h
      exact List.mem_cons_self _ _
    · simp only [dlookup, if_neg hk] at h
      exact List.mem_cons_of_mem _ (ih h)

theorem dlookup_append {α : Type} (a b : List (String × α)) (k : String) :
    dlookup (a ++ b) k =
      match dlookup a k with
      | some v => some v
      | none => dlookup b k := by
  induction a with
  | nil => simp [dlookup]
  | cons kv tl ih =>
    by_cases h : kv.1 = k
    · simp [dlookup, h]
    · simp [dlookup, h, ih]

theorem dlookup_eq_none_iff {α : Type} (l : List (String × α)) (k : String) :
    dlookup l k = none ↔ k ∉ l.map Prod.fst := by
  induction l with
  | nil => simp [dlookup]
  | cons kv tl ih =>
    obtain ⟨k0, v0⟩ := kv
    simp only [dlookup, List.map_cons, List.mem_cons]
    by_cases h : k0 = k
    · simp [h]
    · rw [if_neg h, ih]
      constructor
      · intro hn hc
        rcases hc with hc | hc
        · exact h hc.symm
        · exact hn hc
      · intro hn hc
        exact hn (Or.inr hc)

theorem dictInsert_eq_append {α : Type} (d : List (String × α)) (k : String) (v : α)
    (h : dlookup d k = none) : dictInsert d k v = d ++ [(k, v)] := by
  induction d with
  | nil => simp [dictInsert]
  | cons kv tl ih =>
    by_cases hk : kv.1 = k
    · simp [dlookup, hk] at h
    · simp only [dlookup, if_neg hk] at h
      simp [dictInsert, hk, ih h]

/-! ### Validation lemmas -/

/-- Success condition of the per-field validation. -/
def fieldOkA (d : List (String × ArgVal)) (f : FieldDef) : Prop :=
  (∃ j, dlookup d f.name = some (.jsonVal j) ∧ typeMatch f.type j = true) ∨
  (dlookup d f.name = none ∧ f.default.isSome = true)

theorem buildArgs_isOk_iff (d : List (String × ArgVal)) (fs : List FieldDef) :
    (∃ args, buildArgs d fs = .ok args) ↔ ∀ f ∈ fs, fieldOkA d f := by
  induction fs with
  | nil => simp [buildArgs]
  | cons f fs ih =>
    simp only [List.mem_cons, forall_eq_or_imp]
    constructor
    · rintro ⟨args, hargs⟩
      cases hd : dlookup d f.name with
      | none =>
        cases hdef : f.default with
        | none => simp [buildArgs, hd, hdef] at hargs
        | some dv =>
          refine ⟨Or.inr ⟨hd, by simp [hdef]⟩, ih.mp ?_⟩
          simp only [buildArgs, hd, hdef] at hargs
          cases hb : buildArgs d fs with
          | ok args' => exact ⟨args', rfl⟩
          | error e => rw [hb] at hargs; simp [Except.map] at hargs
      | some av =>
        cases av with
        | callVal tc => simp [buildArgs, hd] at hargs
        | jsonVal j =>
          by_cases ht : typeMatch f.type j = true
          · refine ⟨Or.inl ⟨j, hd, ht⟩, ih.mp ?_⟩
            simp only [buildArgs, hd, if_pos ht] at hargs
            cases hb : buildArgs d fs with
            | ok args' => exact ⟨args', rfl⟩
            | error e => rw [hb] at hargs; simp [Except.map] at hargs
          · simp [buildArgs, hd, ht] at hargs
    · rintro ⟨hf, hfs⟩
      obtain ⟨args', hargs'⟩ := ih.mpr hfs
      rcases hf with ⟨j, hd, ht⟩ | ⟨hd, hdef⟩
      · exact ⟨(f.name, j) :: args', by simp [buildArgs, hd, ht, hargs', Except.map]⟩
      · obtain ⟨dv, hdv⟩ := Option.isSome_iff_exists.mp hdef
        exact ⟨(f.name, dv) :: args', by simp [buildArgs, hd, hdv, hargs', Except.map]⟩

theorem buildArgs_ok_required (d : List (String × ArgVal)) (fs : List FieldDef)
    (args : List (String × Json)) (h : buildArgs d fs = .ok args) :
    ∀ f ∈ fs, dlookup d f.name = none → f.default.isSome = true := by
  intro f hf hd
  have := (buildArgs_isOk_iff d fs).mp ⟨args, h⟩ f hf
  rcases this with ⟨j, hj, _⟩ | ⟨_, hdef⟩
  · rw [hd] at hj; cases hj
  · exact hdef

theorem buildArgs_lookup (d : List (String × ArgVal)) (fs : List FieldDef)
    (args : List (String × Json)) (k : String) (j : Json)
    (h : buildArgs d fs = .ok args) (hk : k ∈ fs.map FieldDef.name)
    (hd : dlookup d k = some (.jsonVal j)) : dlookup args k = some j := by
  induction fs generalizing args with
  | nil => simp at hk
  | cons f fs ih =>
    by_cases hfk : f.name = k
    · subst hfk
      simp only [buildArgs, hd] at h
      by_cases ht : typeMatch f.type j = true
      · rw [if_pos ht] at h
        cases hb : buildArgs d fs with
        | ok args' =>
          rw [hb] at h
          simp only [Except.map] at h
          cases h
          simp [dlookup]
        | error e => rw [hb] at h; simp [Except.map] at h
      · rw [if_neg ht] at h; cases h
    · simp only [List.map_cons, List.mem_cons] at hk
      rcases hk with hk | hk
      · exact absurd hk.symm hfk
      · cases hdf : dlookup d f.name with
        | none =>
          cases hdef : f.default with
          | none => simp [buildArgs, hdf, hdef] at h
          | some dv =>
            simp only [buildArgs, hdf, hdef] at h
            cases hb : buildArgs d fs with
            | ok args' =>
              rw [hb] at h
              simp only [Except.map] at h
              cases h
              simp only [dlookup, if_neg hfk]
              exact ih args' hb hk
            | error e => rw [hb] at h; simp [Except.map] at h
        | some av =>
          cases av with
          | callVal tc => simp [buildArgs, hdf] at h
          | jsonVal j' =>
            by_cases ht : typeMatch f.type j' = true
            · simp only [buildArgs, hdf, if_pos ht] at h
              cases hb : buildArgs d fs with
              | ok args' =>
                rw [hb] at h
                simp only [Except.map] at h
                cases h
                simp only [dlookup, if_neg hfk]
                exact ih args' hb hk
              | error e => rw [hb] at h; simp [Except.map] at h
            · simp [buildArgs, hdf, ht] at h

/-! ### Unfolding lemmas for `from_tool_call` and schema accessors -/

theorem from_tool_call_none (td : ToolDef) (tc : ChoiceMessageToolCall)
    (h : rawArgs tc = none) :
    GroqTool.from_tool_call td tc
      = (model_validate td (attachToolCall [] tc)).mapError .validationErr := by
  unfold GroqTool.from_tool_call
  rw [h]

theorem from_tool_call_some (td : ToolDef) (tc : ChoiceMessageToolCall) (s : String)
    (h : rawArgs tc = some s) :
    GroqTool.from_tool_call td tc
      = (match jsonLoads s with
         | none => .error .parseErr
         | some (.obj kvs) =>
           (model_validate td
             (attachToolCall (kvs.map (fun kv => (kv.1, ArgVal.jsonVal kv.2))) tc)).mapError
             .validationErr
         | some _ => .error .typeErr) := by
  unfold GroqTool.from_tool_call
  rw [h]

/-- Top-level keys of a JSON object, in order. -/
def jsonKeys : Json → List String
  | .obj kvs => kvs.map Prod.fst
  | _ => []

/-- Member lookup in a JSON object. -/
def jlookup : Json → String → Option Json
  | .obj kvs, k => dlookup kvs k
  | _, _ => none

def propertiesOf (td : ToolDef) : List (String × Json) :=
  (schemaFields td).map (fun f => (f.name, fieldSchema f))

theorem schemaFields_ne_reserved (td : ToolDef) (f : FieldDef) (hf : f ∈ schemaFields td) :
    f.name ≠ reservedKey := by
  have := (List.mem_filter.mp hf).2
  simpa using this

theorem mapError_validation_ne_parse (e : Except VErr ToolInstance) :
    e.mapError FtcErr.validationErr ≠ .error .parseErr := by
  cases e <;> simp [Except.mapError]

theorem mapError_validation_ne_type (e : Except VErr ToolInstance) :
    e.mapError FtcErr.validationErr ≠ .error .typeErr := by
  cases e <;> simp [Except.mapError]

theorem model_validate_ok_toolCall (td : ToolDef) (d : List (String × ArgVal))
    (inst : ToolInstance) (h : model_validate td d = .ok inst) :
    ∃ v, dlookup d reservedKey = some v ∧ inst.tool_call = v := by
  unfold model_validate at h
  cases hd : dlookup d reservedKey with
  | none => rw [hd] at h; cases h
  | some v =>
    rw [hd] at h
    refine ⟨v, rfl, ?_⟩
    cases hb : buildArgs d (schemaFields td) with
    | ok args =>
      rw [hb] at h
      simp only [Except.map] at h
      cases h
      rfl
    | error e => rw [hb] at h; simp [Except.map] at h

/-! ### Claim theorems -/

/-- Claim C1: `GroqTool.from_tool_call` fails with the typed parse failure
(`ValueError` wrapping the JSON decode error) exactly when a raw arguments
string is present and is not valid JSON; no other condition produces this
failure, and on it no tool instance is returned. -/
theorem from_tool_call_parse_error_iff (td : ToolDef) (tc : ChoiceMessageToolCall) :
    GroqTool.from_tool_call td tc = .error .parseErr ↔
      ∃ s, rawArgs tc = some s ∧ jsonLoads s = none := by
  cases hr : rawArgs tc with
  | none =>
    rw [from_tool_call_none td tc hr]
    constructor
    · intro h
      exact absurd h (mapError_validation_ne_parse _)
    · rintro ⟨s, hs, _⟩
      cases hs
  | some s0 =>
    rw [from_tool_call_some td tc s0 hr]
    cases hj : jsonLoads s0 with
    | none =>
      constructor
      · intro _
        exact ⟨s0, rfl, hj⟩
      · intro _
        rfl
    | some j =>
      constructor
      · intro h
        cases j
        case obj kvs => exact absurd h (mapError_validation_ne_parse _)
        all_goals simp at h
      · rintro ⟨s, hs, hln⟩
        cases hs
        rw [hj] at hln
        cases hln

/-- Claim C2: `GroqTool.tool_schema` is exactly the vendor envelope
`{type: "function", function: S}` where `S` is the base builder's
`{name, description, parameters}` schema, passed through unaltered and with
nothing else added. -/
theorem tool_schema_envelope (td : ToolDef) :
    GroqTool.tool_schema td
        = .obj [("type", .str "function"), ("function", BaseTool.tool_schema td)] ∧
      jsonKeys (GroqTool.tool_schema td) = ["type", "function"] ∧
      jlookup (GroqTool.tool_schema td) "function" = some (BaseTool.tool_schema td) ∧
      jlookup (GroqTool.tool_schema td) "type" = some (.str "function") ∧
      BaseTool.tool_schema td
        = .obj [("name", .str td.name), ("description", .str td.description),
                ("parameters", parametersSchema td)] := by
  refine ⟨rfl, rfl, ?_, ?_, rfl⟩
  · simp [jlookup, GroqTool.tool_schema, dlookup]
  · simp [jlookup, GroqTool.tool_schema, dlookup]

/-- Claim C4: the tool call is attached under the reserved key `"tool_call"`,
which is distinct from every schema-declared field name, so the attachment never
overwrites a schema-declared argument value. -/
theorem attach_preserves_schema_fields (td : ToolDef) (d : List (String × ArgVal))
    (tc : ChoiceMessageToolCall) (f : FieldDef) (hf : f ∈ schemaFields td) :
    f.name ≠ reservedKey ∧
      dlookup (attachToolCall d tc) f.name = dlookup d f.name := by
  have hne := schemaFields_ne_reserved td f hf
  exact ⟨hne, dlookup_dictInsert_ne d reservedKey f.name _ hne⟩

/-- Claim C6: rendering the same tool type to the Groq envelope twice yields
identical schema objects, with a fixed key order at every level that does not
depend on the input. -/
theorem tool_schema_deterministic (td td' : ToolDef) (h : td = td') :
    GroqTool.tool_schema td = GroqTool.tool_schema td' ∧
      jsonKeys (GroqTool.tool_schema td) = ["type", "function"] ∧
      jsonKeys (BaseTool.tool_schema td) = ["name", "description", "parameters"] ∧
      jsonKeys (parametersSchema td) = ["type", "properties", "required"] := by
  subst h
  exact ⟨rfl, rfl, rfl, rfl⟩

/-- Claim C10: well-formed raw arguments whose JSON value is not an object (for
example `"[1]"` or `"5"`) make `from_tool_call` fail with the `TypeError`
escaping the dict item assignment — an exception distinct from both the parse
failure and the validation failure. -/
theorem from_tool_call_non_object (td : ToolDef) (tc1 tc2 : ChoiceMessageToolCall)
    (h1 : rawArgs tc1 = some "[1]") (h2 : rawArgs tc2 = some "5") :
    GroqTool.from_tool_call td tc1 = .error .typeErr ∧
      GroqTool.from_tool_call td tc2 = .error .typeErr ∧
      FtcErr.typeErr ≠ FtcErr.parseErr ∧
      (∀ e, FtcErr.typeErr ≠ FtcErr.validationErr e) := by
  rw [from_tool_call_some td tc1 _ h1, from_tool_call_some td tc2 _ h2]
  have hj1 : jsonLoads "[1]" = some (.arr [.num 1 0]) := rfl
  have hj2 : jsonLoads "5" = some (.num 5 0) := rfl
  rw [hj1, hj2]
  refine ⟨rfl, rfl, by simp, by simp⟩

theorem mapError_ok_iff (e : Except VErr ToolInstance) (inst : ToolInstance) :
    e.mapError FtcErr.validationErr = .ok inst ↔ e = .ok inst := by
  cases e <;> simp [Except.mapError]

theorem dlookup_single_other (v : ArgVal) (k : String) (h : k ≠ reservedKey) :
    dlookup [(reservedKey, v)] k = none := by
  simp only [dlookup]
  rw [if_neg fun hc => h hc.symm]

theorem validate_attach_empty_ok_iff (td : ToolDef) (tc : ChoiceMessageToolCall) :
    (∃ inst, model_validate td (attachToolCall [] tc) = .ok inst) ↔
      ∀ f ∈ schemaFields td, f.default.isSome = true := by
  have hd : attachToolCall ([] : List (String × ArgVal)) tc
      = [(reservedKey, ArgVal.callVal tc)] := rfl
  rw [hd]
  unfold model_validate
  have hlk : dlookup [(reservedKey, ArgVal.callVal tc)] reservedKey
      = some (ArgVal.callVal tc) := by simp [dlookup]
  rw [hlk]
  constructor
  · rintro ⟨inst, hinst⟩
    cases hb : buildArgs [(reservedKey, ArgVal.callVal tc)] (schemaFields td) with
    | error e => rw [hb] at hinst; simp [Except.map] at hinst
    | ok args =>
      intro f hf
      exact buildArgs_ok_required _ _ _ hb f hf
        (dlookup_single_other _ _ (schemaFields_ne_reserved td f hf))
  · intro hall
    have hok : ∀ f ∈ schemaFields td, fieldOkA [(reservedKey, ArgVal.callVal tc)] f := by
      intro f hf
      exact Or.inr ⟨dlookup_single_other _ _ (schemaFields_ne_reserved td f hf), hall f hf⟩
    obtain ⟨args, hargs⟩ := (buildArgs_isOk_iff _ _).mpr hok
    exact ⟨⟨args, ArgVal.callVal tc⟩, by rw [hargs]; rfl⟩

theorem requiredNames_eq_nil_iff (td : ToolDef) :
    requiredNames td = [] ↔ ∀ f ∈ schemaFields td, f.default.isSome = true := by
  unfold requiredNames
  rw [List.map_eq_nil_iff, List.filter_eq_nil_iff]
  constructor
  · intro h f hf
    have := h f hf
    cases hdef : f.default <;> simp [hdef] at this ⊢
  · intro h f hf
    have := h f hf
    cases hdef : f.default <;> simp [hdef] at this ⊢

/-- Claim C5: well-formed raw arguments `"{}"` omitting a required field fail
with the validation failure, not the parse failure and not a successful
instance. -/
theorem from_tool_call_missing_required (td : ToolDef) (tc : ChoiceMessageToolCall)
    (f : FieldDef) (hf : f ∈ schemaFields td) (hreq : f.default = none)
    (hraw : rawArgs tc = some "\x7b\x7d") :
    ∃ e, GroqTool.from_tool_call td tc = .error (.validationErr e) := by
  rw [from_tool_call_some td tc _ hraw]
  have hjson : jsonLoads "\x7b\x7d" = some (.obj []) := rfl
  rw [hjson]
  have hd : attachToolCall (([] : List (String × Json)).map
        (fun kv => (kv.1, ArgVal.jsonVal kv.2))) tc
      = [(reservedKey, ArgVal.callVal tc)] := rfl
  cases hb : buildArgs [(reservedKey, ArgVal.callVal tc)] (schemaFields td) with
  | ok args =>
    exfalso
    have := buildArgs_ok_required _ _ _ hb f hf
      (dlookup_single_other _ _ (schemaFields_ne_reserved td f hf))
    rw [hreq] at this
    simp at this
  | error e =>
    refine ⟨e, ?_⟩
    show (model_validate td (attachToolCall (([] : List (String × Json)).map
        (fun kv => (kv.1, ArgVal.jsonVal kv.2))) tc)).mapError FtcErr.validationErr
      = .error (.validationErr e)
    rw [hd]
    unfold model_validate
    have hlk : dlookup [(reservedKey, ArgVal.callVal tc)] reservedKey
        = some (ArgVal.callVal tc) := by simp [dlookup]
    rw [hlk, hb]
    rfl

/-- Claim C9: when the tool call's function member is absent or its arguments
string is empty, `from_tool_call` skips JSON parsing and validates the empty
mapping directly: no parse failure is possible, and the call succeeds exactly
when the tool declares no required fields. -/
theorem from_tool_call_absent_arguments (td : ToolDef) (tc : ChoiceMessageToolCall)
    (h : tc.function = none ∨
      ∃ f, tc.function = some f ∧ (f.arguments = none ∨ f.arguments = some "")) :
    GroqTool.from_tool_call td tc
        = (model_validate td (attachToolCall [] tc)).mapError .validationErr ∧
      GroqTool.from_tool_call td tc ≠ .error .parseErr ∧
      ((∃ inst, GroqTool.from_tool_call td tc = .ok inst) ↔ requiredNames td = []) := by
  have hro : rawArgs tc = none := by
    rcases h with h | ⟨f, hf, ha | ha⟩
    · simp [rawArgs, h]
    · simp [rawArgs, hf, ha]
    · simp [rawArgs, hf, ha]
  have heq := from_tool_call_none td tc hro
  refine ⟨heq, ?_, ?_⟩
  · rw [heq]
    exact mapError_validation_ne_parse _
  · rw [heq, requiredNames_eq_nil_iff]
    constructor
    · rintro ⟨inst, hinst⟩
      rw [mapError_ok_iff] at hinst
      exact (validate_attach_empty_ok_iff td tc).mp ⟨inst, hinst⟩
    · intro hall
      obtain ⟨inst, hinst⟩ := (validate_attach_empty_ok_iff td tc).mpr hall
      exact ⟨inst, by rw [mapError_ok_iff]; exact hinst⟩

/-- Claim C8: `from_tool_call` and `tool_schema` are deterministic functions of
their inputs, and the back-reference stored on a successfully constructed
instance is the unmodified tool call that was passed in. -/
theorem from_tool_call_pure (td : ToolDef) (tc : ChoiceMessageToolCall)
    (inst : ToolInstance) (h : GroqTool.from_tool_call td tc = .ok inst) :
    inst.tool_call = .callVal tc ∧
      GroqTool.from_tool_call td tc = GroqTool.from_tool_call td tc ∧
      GroqTool.tool_schema td = GroqTool.tool_schema td := by
  refine ⟨?_, rfl, rfl⟩
  cases hr : rawArgs tc with
  | none =>
    rw [from_tool_call_none td tc hr, mapError_ok_iff] at h
    obtain ⟨v, hv, hveq⟩ := model_validate_ok_toolCall _ _ _ h
    unfold attachToolCall at hv
    rw [dlookup_dictInsert_self] at hv
    cases hv
    exact hveq
  | some s =>
    rw [from_tool_call_some td tc s hr] at h
    cases hj : jsonLoads s with
    | none => rw [hj] at h; simp at h
    | some j =>
      rw [hj] at h
      cases j
      case obj kvs =>
        rw [mapError_ok_iff] at h
        obtain ⟨v, hv, hveq⟩ := model_validate_ok_toolCall _ _ _ h
        unfold attachToolCall at hv
        rw [dlookup_dictInsert_self] at hv
        cases hv
        exact hveq
      all_goals simp at h
theorem dlookup_map_of_nodup {β : Type} (fs : List FieldDef) (g : FieldDef → β)
    (hnodup : (fs.map FieldDef.name).Nodup) (p : FieldDef) (hp : p ∈ fs) :
    dlookup (fs.map (fun f => (f.name, g f))) p.name = some (g p) := by
  induction fs with
  | nil => simp at hp
  | cons f fs ih =>
    simp only [List.map_cons, List.nodup_cons] at hnodup
    rcases List.mem_cons.mp hp with hp | hp
    · subst hp
      simp [dlookup]
    · have hne : f.name ≠ p.name := by
        intro hc
        exact hnodup.1 (hc ▸ List.mem_map_of_mem FieldDef.name hp)
      simp only [List.map_cons, dlookup, if_neg hne]
      exact ih hnodup.2 hp

theorem schemaFields_from_fn (sig : FnSig)
    (hres : ∀ p ∈ sig.params, p.name ≠ reservedKey) :
    schemaFields (GroqTool.from_fn sig) = sig.params := by
  unfold schemaFields GroqTool.from_fn convert_function_to_tool
  exact List.filter_eq_self.mpr fun p hp => by simpa using hres p hp

/-- Claim C7: the rendered schema's `required` list holds exactly the names of
the parameters without a default value and none of the parameters with one, and
every parameter appears in `properties` with its type and description. -/
theorem from_fn_required_fidelity (sig : FnSig)
    (hres : ∀ p ∈ sig.params, p.name ≠ reservedKey)
    (hnodup : (sig.params.map FieldDef.name).Nodup) :
    jlookup (parametersSchema (GroqTool.from_fn sig)) "required"
        = some (.arr ((sig.params.filter (fun p => p.default.isNone)).map
            (fun p => Json.str p.name))) ∧
      (∀ p ∈ sig.params, p.default.isNone = true →
        p.name ∈ requiredNames (GroqTool.from_fn sig)) ∧
      (∀ p ∈ sig.params, p.default.isSome = true →
        p.name ∉ requiredNames (GroqTool.from_fn sig)) ∧
      jlookup (parametersSchema (GroqTool.from_fn sig)) "properties"
        = some (.obj (propertiesOf (GroqTool.from_fn sig))) ∧
      (∀ p ∈ sig.params, dlookup (propertiesOf (GroqTool.from_fn sig)) p.name
        = some (.obj [("type", .str (ftypeName p.type)),
                      ("description", .str p.description)])) := by
  have hsf := schemaFields_from_fn sig hres
  refine ⟨?_, ?_, ?_, ?_, ?_⟩
  · show dlookup [("type", Json.str "object"),
        ("properties", Json.obj (propertiesOf (GroqTool.from_fn sig))),
        ("required", Json.arr ((requiredNames (GroqTool.from_fn sig)).map
          (fun n => Json.str n)))] "required" = _
    simp only [dlookup]
    rw [if_pos trivial]
    unfold requiredNames
    rw [hsf, List.map_map]
    rfl
  · intro p hp hdef
    unfold requiredNames
    rw [hsf]
    exact List.mem_map_of_mem FieldDef.name (List.mem_filter.mpr ⟨hp, hdef⟩)
  · intro p hp hdef hmem
    unfold requiredNames at hmem
    rw [hsf] at hmem
    obtain ⟨q, hq, hqn⟩ := List.mem_map.mp hmem
    obtain ⟨hqmem, hqdef⟩ := List.mem_filter.mp hq
    have : q = p := List.inj_on_of_nodup_map hnodup hqmem hp hqn
    subst this
    rw [Option.isNone_iff_eq_none.mp hqdef] at hdef
    simp at hdef
  · show dlookup [("type", Json.str "object"),
        ("properties", Json.obj (propertiesOf (GroqTool.from_fn sig))),
        ("required", Json.arr ((requiredNames (GroqTool.from_fn sig)).map
          (fun n => Json.str n)))] "properties" = _
    simp only [dlookup]
    rw [if_neg (by decide), if_pos trivial]
  · intro p hp
    unfold propertiesOf
    rw [hsf]
    exact dlookup_map_of_nodup sig.params fieldSchema hnodup p hp

/-! ### Round-trip lemmas: the canonical encoding of a valid arguments mapping
parses back to the same mapping. -/

theorem skipWs_not_ws (c : Char) (cs : List Char) (h : c ∉ wsChars) :
    skipWs (c :: cs) = c :: cs := by
  simp [skipWs, h]

theorem hexDigitVal_hexDigitChar : ∀ d, d < 16 → hexDigitVal (hexDigitChar d) = some d := by
  decide

theorem isDigitC_ne (c : Char) (h : isDigitC c = true) :
    c ≠ '"' ∧ c ≠ '\\' ∧ c ≠ lbrace ∧ c ≠ '[' ∧ c ≠ 't' ∧ c ≠ 'f' ∧ c ≠ 'n' ∧
      c ≠ 'N' ∧ c ≠ 'I' ∧ c ≠ '-' ∧ c ≠ '.' ∧ c ∉ wsChars := by
  refine ⟨?_, ?_, ?_, ?_, ?_, ?_, ?_, ?_, ?_, ?_, ?_, ?_⟩ <;>
    first
    | (intro hc; rw [hc] at h; exact absurd h (by decide))
    | (intro hc; simp only [wsChars, List.mem_cons, List.not_mem_nil, or_false] at hc
       rcases hc with hc | hc | hc | hc <;> (rw [hc] at h; exact absurd h (by decide)))

theorem escStr_cons (c : Char) (cs : List Char) :
    escStr (c :: cs) = escChar c ++ escStr cs := by
  simp [escStr]

theorem pStrAux_quote (g : Nat) (acc tl : List Char) :
    pStrAux (g+1) acc ('"' :: tl) = some (acc, tl) := rfl

theorem pStrAux_esc (g : Nat) (acc tl tl' : List Char) (d : Char)
    (h : pEscape tl = some (d, tl')) :
    pStrAux (g+1) acc ('\\' :: tl) = pStrAux g (acc ++ [d]) tl' := by
  show (if ('\\' : Char) = '"' then some (acc, tl)
        else if ('\\' : Char) = '\\' then
          match pEscape tl with
          | some (d, cs') => pStrAux g (acc ++ [d]) cs'
          | none => none
        else if ('\\'.toNat < 0x20) then none
        else pStrAux g (acc ++ ['\\']) tl) = _
  rw [if_neg (by decide), if_pos rfl, h]

theorem pStrAux_lit (g : Nat) (acc tl : List Char) (c : Char)
    (h1 : c ≠ '"') (h2 : c ≠ '\\') (h3 : ¬ c.toNat < 0x20) :
    pStrAux (g+1) acc (c :: tl) = pStrAux g (acc ++ [c]) tl := by
  show (if c = '"' then some (acc, tl)
        else if c = '\\' then
          match pEscape tl with
          | some (d, cs') => pStrAux g (acc ++ [d]) cs'
          | none => none
        else if (c.toNat < 0x20) then none
        else pStrAux g (acc ++ [c]) tl) = _
  rw [if_neg h1, if_neg h2, if_neg h3]

theorem pHex4_00 (h1 h2 : Char) (n1 n2 : Nat) (T : List Char)
    (hx1 : hexDigitVal h1 = some n1) (hx2 : hexDigitVal h2 = some n2) :
    pHex4 ('0' :: '0' :: h1 :: h2 :: T) = some (n1 * 16 + n2, T) := by
  have h0 : hexDigitVal '0' = some 0 := rfl
  simp only [pHex4, h0, hx1, hx2]
  norm_num

theorem pEscape_u (cs' : List Char) :
    pEscape ('u' :: cs') =
      (match pHex4 cs' with
       | none => none
       | some (n, cs'') =>
         if isHighSurrogate n then
           match cs'' with
           | c1 :: c2 :: cs3 =>
             if c1 = '\\' ∧ c2 = 'u' then
               match pHex4 cs3 with
               | some (n2, cs4) =>
                 if isLowSurrogate n2 then
                   some (Char.ofNat (0x10000 + (n - 0xD800) * 0x400 + (n2 - 0xDC00)), cs4)
                 else some (Char.ofNat n, cs'')
               | none => some (Char.ofNat n, cs'')
             else some (Char.ofNat n, cs'')
           | _ => some (Char.ofNat n, cs'')
         else some (Char.ofNat n, cs'')) := rfl

theorem pEscape_control (c : Char) (tl : List Char) (h : c.toNat < 0x20) :
    pEscape ('u' :: '0' :: '0' :: hexDigitChar (c.toNat / 16) ::
      hexDigitChar (c.toNat % 16) :: tl) = some (c, tl) := by
  have hx1 : hexDigitVal (hexDigitChar (c.toNat / 16)) = some (c.toNat / 16) :=
    hexDigitVal_hexDigitChar _ (by omega)
  have hx2 : hexDigitVal (hexDigitChar (c.toNat % 16)) = some (c.toNat % 16) :=
    hexDigitVal_hexDigitChar _ (by omega)
  have hh : pHex4 ('0' :: '0' :: hexDigitChar (c.toNat / 16) ::
      hexDigitChar (c.toNat % 16) :: tl) = some (c.toNat / 16 * 16 + c.toNat % 16, tl) :=
    pHex4_00 _ _ _ _ _ hx1 hx2
  have hn : c.toNat / 16 * 16 + c.toNat % 16 = c.toNat := by omega
  rw [hn] at hh
  have hs : isHighSurrogate c.toNat = false := by
    unfold isHighSurrogate
    simp only [Bool.and_eq_false_iff, decide_eq_false_iff_not, not_le]
    left
    omega
  rw [pEscape_u, hh]
  simp only [hs, Bool.false_eq_true, if_false, Char.ofNat_toNat]

theorem pStrAux_rt (s : List Char) : ∀ (acc rest : List Char) (fuel : Nat),
    (escStr s).length < fuel →
    pStrAux fuel acc (escStr s ++ '"' :: rest) = some (acc ++ s, rest) := by
  induction s with
  | nil =>
    intro acc rest fuel hf
    match fuel, hf with
    | g+1, _ =>
      show pStrAux (g+1) acc ('"' :: rest) = some (acc ++ [], rest)
      rw [pStrAux_quote]
      simp
  | cons c cs ih =>
    intro acc rest fuel hf
    rw [escStr_cons] at hf ⊢
    rw [List.append_assoc]
    by_cases h1 : c = '"'
    · subst h1
      have he : escChar '"' = ['\\', '"'] := rfl
      rw [he] at hf ⊢
      match fuel, hf with
      | g+1, hf =>
        show pStrAux (g+1) acc ('\\' :: '"' :: (escStr cs ++ '"' :: rest)) = _
        rw [pStrAux_esc g acc ('"' :: (escStr cs ++ '"' :: rest)) (escStr cs ++ '"' :: rest) '"' rfl,
          ih (acc ++ ['"']) rest g (by simp at hf ⊢; omega)]
        simp
    · by_cases h2 : c = '\\'
      · subst h2
        have he : escChar '\\' = ['\\', '\\'] := rfl
        rw [he] at hf ⊢
        match fuel, hf with
        | g+1, hf =>
          show pStrAux (g+1) acc ('\\' :: '\\' :: (escStr cs ++ '"' :: rest)) = _
          rw [pStrAux_esc g acc ('\\' :: (escStr cs ++ '"' :: rest)) (escStr cs ++ '"' :: rest) '\\' rfl,
            ih (acc ++ ['\\']) rest g (by simp at hf ⊢; omega)]
          simp
      · by_cases h3 : c.toNat < 0x20
        · have he : escChar c = ['\\', 'u', '0', '0',
              hexDigitChar (c.toNat / 16), hexDigitChar (c.toNat % 16)] := by
            unfold escChar
            rw [if_neg h1, if_neg h2, if_pos h3]
            rfl
          rw [he] at hf ⊢
          match fuel, hf with
          | g+1, hf =>
            show pStrAux (g+1) acc ('\\' :: 'u' :: '0' :: '0' ::
              hexDigitChar (c.toNat / 16) :: hexDigitChar (c.toNat % 16) ::
              (escStr cs ++ '"' :: rest)) = _
            rw [pStrAux_esc g acc _ _ c (pEscape_control c _ h3),
              ih (acc ++ [c]) rest g (by simp at hf ⊢; omega)]
            simp
        · have he : escChar c = [c] := by
            unfold escChar
            rw [if_neg h1, if_neg h2, if_neg h3]
          rw [he] at hf ⊢
          match fuel, hf with
          | g+1, hf =>
            show pStrAux (g+1) acc (c :: (escStr cs ++ '"' :: rest)) = _
            rw [pStrAux_lit g _ _ c h1 h2 h3,
              ih (acc ++ [c]) rest g (by simp at hf ⊢; omega)]
            simp

/-! ### Number round trip -/

def digitsVal (ds : List Char) : Nat :=
  ds.foldl (fun a c => a * 10 + (c.toNat - 48)) 0

theorem digit_char_toNat : ∀ d, d < 10 → (Char.ofNat (48 + d)).toNat = 48 + d := by
  decide

theorem digit_char_isDigit : ∀ d, d < 10 → isDigitC (Char.ofNat (48 + d)) = true := by
  decide

theorem digit_char_ne_zero : ∀ d, d < 10 → d ≠ 0 → Char.ofNat (48 + d) ≠ '0' := by
  decide

theorem natDigitsAux_acc (fuel : Nat) : ∀ (n : Nat) (acc : List Char),
    natDigitsAux fuel n acc = natDigitsAux fuel n [] ++ acc := by
  induction fuel with
  | zero => intro n acc; simp [natDigitsAux]
  | succ g ih =>
    intro n acc
    by_cases h : n < 10
    · simp [natDigitsAux, h]
    · simp only [natDigitsAux, if_neg h]
      rw [ih (n / 10) (Char.ofNat (48 + n % 10) :: acc),
        ih (n / 10) [Char.ofNat (48 + n % 10)]]
      simp

theorem natDigits_all_digits (fuel : Nat) : ∀ n, n < fuel →
    ∀ c ∈ natDigitsAux fuel n [], isDigitC c = true := by
  induction fuel with
  | zero => intro n hn; omega
  | succ g ih =>
    intro n hn c hc
    by_cases h : n < 10
    · simp only [natDigitsAux, if_pos h, List.mem_singleton] at hc
      subst hc
      exact digit_char_isDigit n h
    · simp only [natDigitsAux, if_neg h] at hc
      rw [natDigitsAux_acc] at hc
      rcases List.mem_append.mp hc with hc | hc
      · exact ih (n / 10) (by omega) c hc
      · simp only [List.mem_singleton] at hc
        subst hc
        exact digit_char_isDigit _ (by omega)

theorem natDigits_ne_nil (fuel n : Nat) (hf : 0 < fuel) :
    natDigitsAux fuel n [] ≠ [] := by
  match fuel, hf with
  | g+1, _ =>
    by_cases h : n < 10
    · simp [natDigitsAux, h]
    · simp only [natDigitsAux, if_neg h]
      rw [natDigitsAux_acc]
      simp

theorem digitsVal_natDigits (fuel : Nat) : ∀ n, n < fuel →
    digitsVal (natDigitsAux fuel n []) = n := by
  induction fuel with
  | zero => intro n hn; omega
  | succ g ih =>
    intro n hn
    by_cases h : n < 10
    · simp only [natDigitsAux, if_pos h]
      simp [digitsVal, digit_char_toNat n h]
    · simp only [natDigitsAux, if_neg h]
      rw [natDigitsAux_acc]
      unfold digitsVal
      rw [List.foldl_append]
      have hv := ih (n / 10) (by omega)
      unfold digitsVal at hv
      rw [hv]
      simp only [List.foldl_cons, List.foldl_nil]
      rw [digit_char_toNat _ (by omega)]
      omega

theorem natDigits_head_ne_zero (fuel : Nat) : ∀ n, n < fuel → n ≠ 0 →
    ∀ d ds, natDigitsAux fuel n [] = d :: ds → d ≠ '0' := by
  induction fuel with
  | zero => intro n hn; omega
  | succ g ih =>
    intro n hn hnz d ds hd
    by_cases h : n < 10
    · simp only [natDigitsAux, if_pos h] at hd
      cases hd
      exact digit_char_ne_zero n h hnz
    · simp only [natDigitsAux, if_neg h] at hd
      rw [natDigitsAux_acc] at hd
      have hne := natDigits_ne_nil g (n / 10) (by omega)
      cases ha : natDigitsAux g (n / 10) [] with
      | nil => exact absurd ha hne
      | cons a as =>
        rw [ha] at hd
        simp only [List.cons_append, List.cons.injEq] at hd
        rw [← hd.1]
        exact ih (n / 10) (by omega) (by omega) a as ha

theorem foldl_digits_acc (ds : List Char) : ∀ acc : Nat,
    ds.foldl (fun a c => a * 10 + (c.toNat - 48)) acc
      = acc * 10 ^ ds.length + digitsVal ds := by
  induction ds with
  | nil => intro acc; simp [digitsVal]
  | cons c tl ih =>
    intro acc
    simp only [List.foldl_cons, List.length_cons]
    rw [ih (acc * 10 + (c.toNat - 48))]
    have h2 : digitsVal (c :: tl) = (c.toNat - 48) * 10 ^ tl.length + digitsVal tl := by
      show (c :: tl).foldl (fun a c => a * 10 + (c.toNat - 48)) 0 = _
      simp only [List.foldl_cons]
      rw [ih (0 * 10 + (c.toNat - 48))]
      ring
    rw [h2]
    ring

theorem pDigits_run (ds : List Char) : ∀ (acc cnt : Nat) (rest : List Char) (fuel : Nat),
    (∀ c ∈ ds, isDigitC c = true) →
    (∀ c, rest.head? = some c → isDigitC c = false) →
    ds.length ≤ fuel →
    pDigits fuel acc cnt (ds ++ rest)
      = (ds.foldl (fun a c => a * 10 + (c.toNat - 48)) acc, cnt + ds.length, rest) := by
  induction ds with
  | nil =>
    intro acc cnt rest fuel _ hrest _
    cases fuel with
    | zero => simp [pDigits]
    | succ g =>
      cases rest with
      | nil => simp [pDigits]
      | cons c r =>
        have := hrest c rfl
        simp [pDigits, this]
  | cons d tl ih =>
    intro acc cnt rest fuel hds hrest hf
    match fuel, hf with
    | g+1, hf =>
      have hd := hds d (List.mem_cons_self d tl)
      simp only [List.cons_append, pDigits, hd, if_pos]
      rw [ih (acc * 10 + (d.toNat - 48)) (cnt + 1) rest g
        (fun c hc => hds c (List.mem_cons_of_mem d hc)) hrest (by simpa using hf)]
      simp only [List.foldl_cons, List.length_cons]
      have hc : cnt + 1 + tl.length = cnt + (tl.length + 1) := by omega
      rw [hc]

/-- Characters that may legitimately follow an encoded member value inside an
encoded object: a comma or the closing brace. -/
def argBoundary (cs : List Char) : Prop :=
  cs.head? = some ',' ∨ cs.head? = some rbrace

theorem argBoundary_cases (cs : List Char) (h : argBoundary cs) :
    (∃ rs, cs = ',' :: rs) ∨ (∃ rs, cs = rbrace :: rs) := by
  cases cs with
  | nil => rcases h with h | h <;> simp [List.head?] at h
  | cons c rs =>
    rcases h with h | h <;> simp only [List.head?_cons, Option.some_inj] at h
    · exact Or.inl ⟨rs, by rw [h]⟩
    · exact Or.inr ⟨rs, by rw [h]⟩

theorem argBoundary_not_digit (cs : List Char) (h : argBoundary cs) :
    ∀ c, cs.head? = some c → isDigitC c = false := by
  intro c hc
  rcases argBoundary_cases cs h with ⟨rs, hr⟩ | ⟨rs, hr⟩ <;>
    (rw [hr] at hc; simp only [List.head?_cons, Option.some_inj] at hc; rw [← hc]; decide)

theorem pFrac_boundary (v : Nat) (rest : List Char) (hb : argBoundary rest) :
    pFrac v rest = ((v : Int), 0, rest) := by
  rcases argBoundary_cases rest hb with ⟨rs, hr⟩ | ⟨rs, hr⟩ <;> subst hr
  · rfl
  · rfl

theorem pExp_boundary (rest : List Char) (hb : argBoundary rest) :
    pExp rest = (0, rest) := by
  rcases argBoundary_cases rest hb with ⟨rs, hr⟩ | ⟨rs, hr⟩ <;> subst hr
  · rfl
  · rfl

theorem natDigits_zero : natDigits 0 = ['0'] := rfl

theorem pNumCore_rt (n : Nat) (rest : List Char) (hb : argBoundary rest) :
    pNumCore (natDigits n ++ rest) = some ((n : Int), 0, rest) := by
  by_cases h0 : n = 0
  · subst h0
    rw [natDigits_zero]
    show pNumCore ('0' :: rest) = _
    simp only [pNumCore, if_pos rfl]
    rw [pFrac_boundary 0 rest hb]
    simp only []
    rw [pExp_boundary rest hb]
    simp
  · obtain ⟨d, ds, hd⟩ : ∃ d ds, natDigits n = d :: ds := by
      cases hnd : natDigits n with
      | nil => exact absurd hnd (natDigits_ne_nil (n+1) n (by omega))
      | cons d ds => exact ⟨d, ds, rfl⟩
    have hdig : ∀ c ∈ natDigits n, isDigitC c = true :=
      natDigits_all_digits (n+1) n (by omega)
    have hdd : isDigitC d = true := hdig d (by rw [hd]; exact List.mem_cons_self d ds)
    have hdz : d ≠ '0' := natDigits_head_ne_zero (n+1) n (by omega) h0 d ds hd
    have hval : digitsVal (d :: ds) = n := by
      rw [← hd]
      exact digitsVal_natDigits (n+1) n (by omega)
    have hfold : ds.foldl (fun a c => a * 10 + (c.toNat - 48)) (d.toNat - 48) = n := by
      unfold digitsVal at hval
      simp only [List.foldl_cons] at hval
      have hz : 0 * 10 + (d.toNat - 48) = d.toNat - 48 := by omega
      rw [hz] at hval
      exact hval
    rw [hd, List.cons_append]
    simp only [pNumCore, if_neg hdz, hdd, if_pos]
    rw [pDigits_run ds (d.toNat - 48) 1 rest (ds ++ rest).length
      (fun c hc => hdig c (by rw [hd]; exact List.mem_cons_of_mem d hc))
      (argBoundary_not_digit rest hb) (by simp)]
    simp only [hfold]
    rw [pFrac_boundary n rest hb]
    simp only []
    rw [pExp_boundary rest hb]
    simp

theorem pNum_rt (i : Int) (rest : List Char) (hb : argBoundary rest) :
    pNum (encInt i ++ rest) = some (.num i 0, rest) := by
  by_cases hneg : i < 0
  · have he : encInt i = '-' :: natDigits i.natAbs := by
      unfold encInt
      rw [if_pos hneg]
    rw [he, List.cons_append]
    simp only [pNum]
    rw [if_pos trivial, pNumCore_rt i.natAbs rest hb]
    have hi : -(i.natAbs : Int) = i := by omega
    simp [hi]
    rw [abs_of_neg hneg]
    ring
  · have he : encInt i = natDigits i.natAbs := by
      unfold encInt
      rw [if_neg hneg]
    obtain ⟨d, ds, hd⟩ : ∃ d ds, natDigits i.natAbs = d :: ds := by
      cases hnd : natDigits i.natAbs with
      | nil => exact absurd hnd (natDigits_ne_nil (i.natAbs+1) i.natAbs (by omega))
      | cons d ds => exact ⟨d, ds, rfl⟩
    have hdd : isDigitC d = true :=
      natDigits_all_digits (i.natAbs+1) i.natAbs (by omega) d
        (by show d ∈ natDigits i.natAbs; rw [hd]; exact List.mem_cons_self d ds)
    have hdm : d ≠ '-' := (isDigitC_ne d hdd).2.2.2.2.2.2.2.2.2.1
    rw [he, hd, List.cons_append]
    simp only [pNum, if_neg hdm]
    rw [← List.cons_append, ← hd, pNumCore_rt i.natAbs rest hb]
    have hi : (i.natAbs : Int) = i := by omega
    rw [hi]

/-- Primitive JSON values: the value shapes a type-matching argument can take. -/
def primVal : Json → Bool
  | .str _ => true
  | .num _ e => e = 0
  | .bool _ => true
  | _ => false

theorem pVal_succ (g : Nat) (cs : List Char) :
    pVal (g+1) cs = pValCore (fun x => pVal g x) (skipWs cs) := rfl

theorem pVal_rt_prim (v : Json) (rest : List Char) (fuel : Nat) (hf : 1 ≤ fuel)
    (hp : primVal v = true) (hb : argBoundary rest) :
    pVal fuel (encValue v ++ rest) = some (v, rest) := by
  match fuel, hf with
  | g+1, _ =>
    cases v with
    | str s =>
      obtain ⟨sd⟩ := s
      have he : encValue (.str (String.mk sd)) = '"' :: (escStr sd ++ ['"']) := rfl
      rw [he]
      have hshape : ('"' :: (escStr sd ++ ['"'])) ++ rest
          = '"' :: (escStr sd ++ '"' :: rest) := by simp
      rw [hshape, pVal_succ, skipWs_not_ws '"' _ (by decide)]
      simp only [pValCore, if_pos rfl]
      rw [pStrAux_rt sd [] rest _ (by simp; omega)]
      simp
    | num m e =>
      have he0 : e = 0 := by simpa [primVal] using hp
      subst he0
      have he : encValue (.num m 0) = encInt m := by
        simp [encValue]
      rw [he]
      obtain ⟨d, ds, hd⟩ : ∃ d ds, encInt m ++ rest = d :: ds := by
        cases hc : encInt m ++ rest with
        | nil =>
          exfalso
          unfold encInt at hc
          by_cases hm : m < 0
          · rw [if_pos hm] at hc; cases hc
          · rw [if_neg hm] at hc
            simp only [List.append_eq_nil] at hc
            exact natDigits_ne_nil _ _ (by omega) hc.1
        | cons d ds => exact ⟨d, ds, rfl⟩
      have hdh : d = '-' ∨ isDigitC d = true := by
        unfold encInt at hd
        by_cases hm : m < 0
        · rw [if_pos hm] at hd
          simp only [List.cons_append, List.cons.injEq] at hd
          exact Or.inl hd.1.symm
        · rw [if_neg hm] at hd
          obtain ⟨a, as, ha⟩ : ∃ a as, natDigits m.natAbs = a :: as := by
            cases hnd : natDigits m.natAbs with
            | nil => exact absurd hnd (natDigits_ne_nil _ _ (by omega))
            | cons a as => exact ⟨a, as, rfl⟩
          rw [ha] at hd
          simp only [List.cons_append, List.cons.injEq] at hd
          refine Or.inr ?_
          rw [← hd.1]
          exact natDigits_all_digits (m.natAbs+1) m.natAbs (by omega) a
            (by show a ∈ natDigits m.natAbs; rw [ha]; exact List.mem_cons_self a as)
      have hfacts : d ≠ '"' ∧ d ≠ lbrace ∧ d ≠ '[' ∧ d ≠ 't' ∧ d ≠ 'f' ∧ d ≠ 'n' ∧
          d ≠ 'N' ∧ d ≠ 'I' ∧ d ∉ wsChars := by
        rcases hdh with hdh | hdh
        · subst hdh
          refine ⟨?_, ?_, ?_, ?_, ?_, ?_, ?_, ?_, ?_⟩ <;> decide
        · obtain ⟨q1, _, q3, q4, q5, q6, q7, q8, q9, _, _, q12⟩ := isDigitC_ne d hdh
          exact ⟨q1, q3, q4, q5, q6, q7, q8, q9, q12⟩
      rw [pVal_succ, hd, skipWs_not_ws d ds hfacts.2.2.2.2.2.2.2.2]
      simp only [pValCore, if_neg hfacts.1, if_neg hfacts.2.1, if_neg hfacts.2.2.1,
        if_neg hfacts.2.2.2.1, if_neg hfacts.2.2.2.2.1, if_neg hfacts.2.2.2.2.2.1,
        if_neg hfacts.2.2.2.2.2.2.1, if_neg hfacts.2.2.2.2.2.2.2.1]
      rw [← hd, pNum_rt m rest hb]
    | bool b =>
      cases b with
      | true =>
        have he : (encValue (.bool true) ++ rest) = 't' :: 'r' :: 'u' :: 'e' :: rest := rfl
        rw [he, pVal_succ, skipWs_not_ws 't' _ (by decide)]
        rfl
      | false =>
        have he : (encValue (.bool false) ++ rest)
            = 'f' :: 'a' :: 'l' :: 's' :: 'e' :: rest := rfl
        rw [he, pVal_succ, skipWs_not_ws 'f' _ (by decide)]
        rfl
    | null => simp [primVal] at hp
    | nan => simp [primVal] at hp
    | inf b => simp [primVal] at hp
    | arr xs => simp [primVal] at hp
    | obj kvs => simp [primVal] at hp

/-! ### Object-member round trip -/

theorem pMembersF_succ (pv : List Char → Option (Json × List Char)) (g : Nat)
    (acc : List (String × Json)) (cs : List Char) :
    pMembersF pv (g+1) acc cs
      = pMembersCore pv (fun acc' cs' => pMembersF pv g acc' cs') acc (skipWs cs) := rfl

theorem pMembersCore_step (pv : List Char → Option (Json × List Char))
    (contF : List (String × Json) → List Char → Option (List (String × Json) × List Char))
    (acc : List (String × Json)) (cs' k r1 : List Char)
    (h : pStrAux (cs'.length + 1) [] cs' = some (k, r1)) :
    pMembersCore pv contF acc ('"' :: cs') = pAfterKey pv contF acc k r1 := by
  have hred : pMembersCore pv contF acc ('"' :: cs')
      = match pStrAux (cs'.length + 1) [] cs' with
        | none => none
        | some (k, r1) => pAfterKey pv contF acc k r1 := rfl
  rw [hred, h]

theorem pAfterKey_step (pv : List Char → Option (Json × List Char))
    (contF : List (String × Json) → List Char → Option (List (String × Json) × List Char))
    (acc : List (String × Json)) (k : List Char) (r3 : List Char) (v : Json) (r4 : List Char)
    (h : pv r3 = some (v, r4)) :
    pAfterKey pv contF acc k (':' :: r3)
      = pAfterValue contF (dictInsert acc (String.mk k) v) r4 := by
  have hred : pAfterKey pv contF acc k (':' :: r3)
      = match pv r3 with
        | none => none
        | some (v, r4) => pAfterValue contF (dictInsert acc (String.mk k) v) r4 := rfl
  rw [hred, h]

theorem pAfterValue_comma
    (contF : List (String × Json) → List Char → Option (List (String × Json) × List Char))
    (acc' : List (String × Json)) (r6 : List Char) :
    pAfterValue contF acc' (',' :: r6) = contF acc' r6 := rfl

theorem pAfterValue_close
    (contF : List (String × Json) → List Char → Option (List (String × Json) × List Char))
    (acc' : List (String × Json)) (r6 : List Char) :
    pAfterValue contF acc' (rbrace :: r6) = some (acc', r6) := rfl

theorem pMembersF_rt (pv : List Char → Option (Json × List Char))
    (hpv : ∀ v rest', primVal v = true → argBoundary rest' →
      pv (encValue v ++ rest') = some (v, rest')) :
    ∀ (m : List (String × Json)) (acc : List (String × Json)) (rest : List Char) (mf : Nat),
      m ≠ [] → (∀ kv ∈ m, primVal kv.2 = true) → m.length ≤ mf →
      pMembersF pv mf acc (encMembersList m ++ rbrace :: rest)
        = some (m.foldl (fun a kv => dictInsert a kv.1 kv.2) acc, rest) := by
  intro m
  induction m with
  | nil =>
    intro acc rest mf hne
    exact absurd rfl hne
  | cons kv tl ih =>
    intro acc rest mf _ hprim hlen
    obtain ⟨k, v⟩ := kv
    obtain ⟨kd⟩ := k
    have hpv' : primVal v = true := hprim (String.mk kd, v) (List.mem_cons_self _ _)
    match mf, hlen with
    | g+1, hlen =>
      cases tl with
      | nil =>
        have hshape : encMembersList [(String.mk kd, v)] ++ rbrace :: rest
            = '"' :: (escStr kd ++ '"' :: ':' :: (encValue v ++ rbrace :: rest)) := by
          show encMember (String.mk kd, v) ++ rbrace :: rest = _
          unfold encMember
          simp
        rw [hshape, pMembersF_succ, skipWs_not_ws '"' _ (by decide)]
        rw [pMembersCore_step pv _ acc _ kd (':' :: (encValue v ++ rbrace :: rest))
          (by rw [pStrAux_rt kd [] _ _
            (by simp only [List.length_append, List.length_cons]; omega)]; rfl)]
        rw [pAfterKey_step pv _ acc kd (encValue v ++ rbrace :: rest) v (rbrace :: rest)
          (hpv v (rbrace :: rest) hpv' (Or.inr rfl))]
        rw [pAfterValue_close]
        simp
      | cons b bs =>
        have hshape : encMembersList ((String.mk kd, v) :: b :: bs) ++ rbrace :: rest
            = '"' :: (escStr kd ++ '"' :: ':' ::
                (encValue v ++ ',' :: (encMembersList (b :: bs) ++ rbrace :: rest))) := by
          show (encMember (String.mk kd, v) ++ ',' :: encMembersList (b :: bs))
              ++ rbrace :: rest = _
          unfold encMember
          simp
        rw [hshape, pMembersF_succ, skipWs_not_ws '"' _ (by decide)]
        rw [pMembersCore_step pv _ acc _ kd
          (':' :: (encValue v ++ ',' :: (encMembersList (b :: bs) ++ rbrace :: rest)))
          (by rw [pStrAux_rt kd [] _ _
            (by simp only [List.length_append, List.length_cons]; omega)]; rfl)]
        rw [pAfterKey_step pv _ acc kd
          (encValue v ++ ',' :: (encMembersList (b :: bs) ++ rbrace :: rest)) v
          (',' :: (encMembersList (b :: bs) ++ rbrace :: rest))
          (hpv v _ hpv' (Or.inl rfl))]
        rw [pAfterValue_comma]
        rw [ih (dictInsert acc (String.mk kd) v) rest g (by simp)
          (fun kv hkv => hprim kv (List.mem_cons_of_mem _ hkv)) (by simp at hlen ⊢; omega)]
        simp

theorem dlookup_of_mem_nodup (m : List (String × Json)) (k : String) (v : Json)
    (hn : nodupKeys m = true) (hm : (k, v) ∈ m) : dlookup m k = some v := by
  induction m with
  | nil => simp at hm
  | cons kv tl ih =>
    obtain ⟨k0, v0⟩ := kv
    simp only [nodupKeys, Bool.and_eq_true] at hn
    rcases List.mem_cons.mp hm with hm | hm
    · cases hm
      simp [dlookup]
    · by_cases hk : k0 = k
      · exfalso
        subst hk
        exact (dlookup_eq_none_iff tl k0).mp (Option.isNone_iff_eq_none.mp hn.1)
          (List.mem_map_of_mem Prod.fst hm)
      · simp only [dlookup, if_neg hk]
        exact ih hn.2 hm

theorem foldl_dictInsert_nodup (m : List (String × Json)) : ∀ acc : List (String × Json),
    nodupKeys m = true → (∀ kv ∈ m, dlookup acc kv.1 = none) →
    m.foldl (fun a kv => dictInsert a kv.1 kv.2) acc = acc ++ m := by
  induction m with
  | nil => intro acc _ _; simp
  | cons kv tl ih =>
    intro acc hn hfresh
    obtain ⟨k, v⟩ := kv
    simp only [nodupKeys, Bool.and_eq_true] at hn
    simp only [List.foldl_cons]
    have hka : dlookup acc k = none := hfresh (k, v) (List.mem_cons_self _ _)
    rw [show dictInsert acc k v = acc ++ [(k, v)] from dictInsert_eq_append acc k v hka]
    rw [ih (acc ++ [(k, v)]) hn.2 ?_]
    · simp
    · intro kv' hkv'
      rw [dlookup_append]
      rw [hfresh kv' (List.mem_cons_of_mem _ hkv')]
      have hne : k ≠ kv'.1 := by
        intro hc
        have h0 : dlookup tl kv'.1 = none := by
          rw [← hc]
          exact Option.isNone_iff_eq_none.mp hn.1
        exact (dlookup_eq_none_iff tl kv'.1).mp h0 (List.mem_map_of_mem Prod.fst hkv')
      simp [dlookup, hne]

theorem encMembersList_length (m : List (String × Json)) :
    m.length ≤ (encMembersList m).length := by
  induction m with
  | nil => simp [encMembersList]
  | cons kv tl ih =>
    cases tl with
    | nil => simp [encMembersList, encMember]
    | cons b bs =>
      show (b :: bs).length + 1 ≤ (encMember kv ++ ',' :: encMembersList (b :: bs)).length
      have h1 : 1 ≤ (encMember kv).length := by simp [encMember]
      simp only [List.length_append, List.length_cons] at ih ⊢
      omega

theorem pValCore_obrace (pv : List Char → Option (Json × List Char))
    (cs' : List Char) (c2 : Char) (cs3 : List Char)
    (h : skipWs cs' = c2 :: cs3) (hne : c2 ≠ rbrace) :
    pValCore pv (lbrace :: cs')
      = match pMembersF pv (cs'.length + 1) [] cs' with
        | some (kvs, rest) => some (.obj kvs, rest)
        | none => none := by
  have hred : pValCore pv (lbrace :: cs')
      = match skipWs cs' with
        | c2 :: cs3 =>
          if c2 = rbrace then some (.obj [], cs3)
          else
            match pMembersF pv (cs'.length + 1) [] cs' with
            | some (kvs, rest) => some (.obj kvs, rest)
            | none => none
        | [] => none := rfl
  rw [hred, h]
  show (if c2 = rbrace then some (Json.obj [], cs3)
        else
          match pMembersF pv (cs'.length + 1) [] cs' with
          | some (kvs, rest) => some (Json.obj kvs, rest)
          | none => none) = _
  rw [if_neg hne]

theorem jsonLoadsL_encodeArgs (m : List (String × Json)) (hn : nodupKeys m = true)
    (hp : ∀ kv ∈ m, primVal kv.2 = true) :
    jsonLoadsL (encodeArgs m) = some (.obj m) := by
  cases m with
  | nil => rfl
  | cons kv tl =>
    obtain ⟨srest, hsrest⟩ : ∃ srest, encMembersList (kv :: tl) = '"' :: srest := by
      obtain ⟨k, v⟩ := kv
      obtain ⟨kd⟩ := k
      cases tl with
      | nil => exact ⟨_, rfl⟩
      | cons b bs => exact ⟨_, rfl⟩
    unfold jsonLoadsL
    rw [show encodeArgs (kv :: tl)
        = lbrace :: (encMembersList (kv :: tl) ++ [rbrace]) from rfl]
    rw [show (lbrace :: (encMembersList (kv :: tl) ++ [rbrace])).length
        = (encMembersList (kv :: tl) ++ [rbrace]).length + 1 from rfl]
    rw [pVal_succ, skipWs_not_ws lbrace _ (by decide)]
    rw [pValCore_obrace (fun x => pVal ((encMembersList (kv :: tl) ++ [rbrace]).length + 1) x)
      (encMembersList (kv :: tl) ++ [rbrace]) '"' (srest ++ [rbrace])
      (by rw [hsrest]; exact skipWs_not_ws '"' _ (by decide)) (by decide)]
    rw [show encMembersList (kv :: tl) ++ [rbrace]
        = encMembersList (kv :: tl) ++ rbrace :: [] from rfl]
    rw [pMembersF_rt (fun x => pVal ((encMembersList (kv :: tl) ++ rbrace :: []).length + 1) x)
      (fun v rest' hv hb => pVal_rt_prim v rest' _ (by omega) hv hb)
      (kv :: tl) [] [] ((encMembersList (kv :: tl) ++ rbrace :: []).length + 1)
      (by simp) hp ?hmf]
    · rw [foldl_dictInsert_nodup (kv :: tl) [] hn (by simp [dlookup])]
      simp [skipWs]
    case hmf =>
      have := encMembersList_length (kv :: tl)
      simp only [List.length_append, List.length_cons] at this ⊢
      omega

theorem typeMatch_prim (t : FType) (v : Json) (h : typeMatch t v = true) :
    primVal v = true := by
  cases t <;> cases v <;> simp_all [typeMatch, primVal]

/-- Claim C3: for every supported tool source kind and every valid arguments
mapping matching its schema, instantiating the tool from a call request carrying
the JSON-encoded mapping succeeds, and the instance's field values equal the
original mapping. -/
theorem from_tool_call_round_trip (src : ToolSource) (m : List (String × Json))
    (tc : ChoiceMessageToolCall)
    (hargs : validArgs (buildToolDef src) m = true)
    (hraw : rawArgs tc = some (String.mk (encodeArgs m))) :
    ∃ inst, GroqTool.from_tool_call (buildToolDef src) tc = .ok inst ∧
      ∀ k v, dlookup m k = some v → dlookup inst.args k = some v := by
  unfold validArgs at hargs
  simp only [Bool.and_eq_true, List.all_eq_true] at hargs
  obtain ⟨⟨hnodup, hfields⟩, hkeys⟩ := hargs
  have hprim : ∀ kv ∈ m, primVal kv.2 = true := by
    intro kv hkv
    have hk := hkeys kv hkv
    simp only [List.any_eq_true, decide_eq_true_eq] at hk
    obtain ⟨f, hf, hfn⟩ := hk
    have hfo := hfields f hf
    have hdm : dlookup m f.name = some kv.2 := by
      rw [hfn]
      exact dlookup_of_mem_nodup m kv.1 kv.2 hnodup (by simpa using hkv)
    unfold fieldOk at hfo
    rw [hdm] at hfo
    exact typeMatch_prim f.type kv.2 hfo
  have hjson : jsonLoads (String.mk (encodeArgs m)) = some (.obj m) := by
    show jsonLoadsL (String.mk (encodeArgs m)).data = _
    rw [show (String.mk (encodeArgs m)).data = encodeArgs m from rfl]
    exact jsonLoadsL_encodeArgs m hnodup hprim
  rw [from_tool_call_some (buildToolDef src) tc _ hraw, hjson]
  have hdl : ∀ k, k ≠ reservedKey →
      dlookup (attachToolCall (m.map (fun kv => (kv.1, ArgVal.jsonVal kv.2))) tc) k
        = (dlookup m k).map ArgVal.jsonVal := by
    intro k hk
    unfold attachToolCall
    rw [dlookup_dictInsert_ne _ _ _ _ hk, dlookup_map_val]
  have hok : ∀ f ∈ schemaFields (buildToolDef src),
      fieldOkA (attachToolCall (m.map (fun kv => (kv.1, ArgVal.jsonVal kv.2))) tc) f := by
    intro f hf
    have hne := schemaFields_ne_reserved (buildToolDef src) f hf
    have hfo := hfields f hf
    unfold fieldOk at hfo
    cases hmf : dlookup m f.name with
    | some v =>
      rw [hmf] at hfo
      exact Or.inl ⟨v, by rw [hdl f.name hne, hmf]; rfl, hfo⟩
    | none =>
      rw [hmf] at hfo
      exact Or.inr ⟨by rw [hdl f.name hne, hmf]; rfl, hfo⟩
  obtain ⟨args, hargs'⟩ := (buildArgs_isOk_iff
    (attachToolCall (m.map (fun kv => (kv.1, ArgVal.jsonVal kv.2))) tc)
    (schemaFields (buildToolDef src))).mpr hok
  refine ⟨⟨args, ArgVal.callVal tc⟩, ?_, ?_⟩
  · show (model_validate (buildToolDef src)
        (attachToolCall (m.map (fun kv => (kv.1, ArgVal.jsonVal kv.2))) tc)).mapError
        FtcErr.validationErr = _
    unfold model_validate
    rw [show dlookup (attachToolCall (m.map (fun kv => (kv.1, ArgVal.jsonVal kv.2))) tc)
        reservedKey = some (ArgVal.callVal tc) from by
      unfold attachToolCall
      exact dlookup_dictInsert_self _ _ _]
    rw [hargs']
    rfl
  · intro k v hkv
    have hmem : (k, v) ∈ m := dlookup_mem m k v hkv
    have hk := hkeys (k, v) hmem
    simp only [List.any_eq_true, decide_eq_true_eq] at hk
    obtain ⟨f, hf, hfn⟩ := hk
    have hne : k ≠ reservedKey := by
      rw [← hfn]
      exact schemaFields_ne_reserved (buildToolDef src) f hf
    have hkin : k ∈ (schemaFields (buildToolDef src)).map FieldDef.name :=
      List.mem_map.mpr ⟨f, hf, hfn⟩
    exact buildArgs_lookup _ _ args k v hargs' hkin (by rw [hdl k hne, hkv]; rfl)

/-! ### Concrete fixtures and witnesses -/

def cityField : FieldDef := ⟨"city", .string, none, "the city"⟩

def unitsField : FieldDef := ⟨"units", .string, some (.str "metric"), "unit system"⟩

/-- The spec's concrete scenario: `lookup(city: str, units: str = "metric")`. -/
def lookupSig : FnSig := ⟨"lookup", "Looks up weather for a city.", [cityField, unitsField]⟩

def lookupTd : ToolDef := GroqTool.from_fn lookupSig

def mkToolCall (args : String) : ChoiceMessageToolCall :=
  ⟨some "call_1", some ⟨some args, some "lookup"⟩, some "function"⟩

theorem from_tool_call_round_trip_witness :
    ∃ inst, GroqTool.from_tool_call (buildToolDef (.fn lookupSig))
        (mkToolCall (String.mk (encodeArgs [("city", Json.str "Tokyo")]))) = .ok inst ∧
      ∀ k v, dlookup [("city", Json.str "Tokyo")] k = some v →
        dlookup inst.args k = some v :=
  from_tool_call_round_trip (.fn lookupSig) [("city", Json.str "Tokyo")]
    (mkToolCall (String.mk (encodeArgs [("city", Json.str "Tokyo")])))
    (by decide) rfl

theorem attach_preserves_schema_fields_witness :
    cityField.name ≠ reservedKey ∧
      dlookup (attachToolCall [("city", ArgVal.jsonVal (.str "Tokyo"))]
          (mkToolCall "\x7b\x7d")) cityField.name
        = dlookup [("city", ArgVal.jsonVal (.str "Tokyo"))] cityField.name :=
  attach_preserves_schema_fields lookupTd [("city", ArgVal.jsonVal (.str "Tokyo"))]
    (mkToolCall "\x7b\x7d") cityField (List.mem_cons_self _ _)

theorem from_tool_call_missing_required_witness :
    ∃ e, GroqTool.from_tool_call lookupTd (mkToolCall "\x7b\x7d")
        = .error (.validationErr e) :=
  from_tool_call_missing_required lookupTd (mkToolCall "\x7b\x7d") cityField
    (List.mem_cons_self _ _) rfl rfl

theorem tool_schema_deterministic_witness :
    GroqTool.tool_schema lookupTd = GroqTool.tool_schema lookupTd ∧
      jsonKeys (GroqTool.tool_schema lookupTd) = ["type", "function"] ∧
      jsonKeys (BaseTool.tool_schema lookupTd) = ["name", "description", "parameters"] ∧
      jsonKeys (parametersSchema lookupTd) = ["type", "properties", "required"] :=
  tool_schema_deterministic lookupTd lookupTd rfl

theorem from_fn_required_fidelity_witness :
    jlookup (parametersSchema (GroqTool.from_fn lookupSig)) "required"
        = some (.arr [.str "city"]) ∧
      "city" ∈ requiredNames (GroqTool.from_fn lookupSig) ∧
      "units" ∉ requiredNames (GroqTool.from_fn lookupSig) ∧
      dlookup (propertiesOf (GroqTool.from_fn lookupSig)) "city"
        = some (.obj [("type", .str "string"), ("description", .str "the city")]) ∧
      dlookup (propertiesOf (GroqTool.from_fn lookupSig)) "units"
        = some (.obj [("type", .str "string"), ("description", .str "unit system")]) := by
  obtain ⟨h1, h2, h3, h4, h5⟩ := from_fn_required_fidelity lookupSig (by decide) (by decide)
  exact ⟨h1, h2 cityField (List.mem_cons_self _ _) rfl,
    h3 unitsField (List.mem_cons_of_mem _ (List.mem_cons_self _ _)) rfl,
    h5 cityField (List.mem_cons_self _ _),
    h5 unitsField (List.mem_cons_of_mem _ (List.mem_cons_self _ _))⟩

theorem from_tool_call_pure_witness :
    (⟨[("city", Json.str "Tokyo"), ("units", Json.str "metric")],
        ArgVal.callVal (mkToolCall "\x7b\"city\": \"Tokyo\"\x7d")⟩ : ToolInstance).tool_call
        = .callVal (mkToolCall "\x7b\"city\": \"Tokyo\"\x7d") ∧
      GroqTool.from_tool_call lookupTd (mkToolCall "\x7b\"city\": \"Tokyo\"\x7d")
        = GroqTool.from_tool_call lookupTd (mkToolCall "\x7b\"city\": \"Tokyo\"\x7d") ∧
      GroqTool.tool_schema lookupTd = GroqTool.tool_schema lookupTd :=
  from_tool_call_pure lookupTd (mkToolCall "\x7b\"city\": \"Tokyo\"\x7d")
    ⟨[("city", Json.str "Tokyo"), ("units", Json.str "metric")],
      ArgVal.callVal (mkToolCall "\x7b\"city\": \"Tokyo\"\x7d")⟩ rfl

theorem from_tool_call_absent_arguments_witness :
    GroqTool.from_tool_call lookupTd ⟨some "call_1", none, some "function"⟩
        = (model_validate lookupTd
            (attachToolCall [] ⟨some "call_1", none, some "function"⟩)).mapError
            .validationErr ∧
      GroqTool.from_tool_call lookupTd ⟨some "call_1", none, some "function"⟩
        ≠ .error .parseErr ∧
      ((∃ inst, GroqTool.from_tool_call lookupTd ⟨some "call_1", none, some "function"⟩
          = .ok inst) ↔ requiredNames lookupTd = []) :=
  from_tool_call_absent_arguments lookupTd ⟨some "call_1", none, some "function"⟩
    (Or.inl rfl)

theorem from_tool_call_non_object_witness :
    GroqTool.from_tool_call lookupTd (mkToolCall "[1]") = .error .typeErr ∧
      GroqTool.from_tool_call lookupTd (mkToolCall "5") = .error .typeErr ∧
      FtcErr.typeErr ≠ FtcErr.parseErr ∧
      (∀ e, FtcErr.typeErr ≠ FtcErr.validationErr e) :=
  from_tool_call_non_object lookupTd (mkToolCall "[1]") (mkToolCall "5") rfl rfl

end Mirascope
